import Mathlib

/-!
Verification development for the secenv secret store.

The TypeScript sources are shallowly embedded here: file contents and
JavaScript strings are modelled as `List Char`, the JavaScript
`String.prototype.trim` (which removes the full ECMAScript WhiteSpace set,
including U+FEFF) is modelled by `jsTrim`, and `String.prototype.split('\n')`
by `splitNl`.  Each embedded definition names the source function it
transliterates.
-/

/-- JavaScript strings / file contents, modelled as lists of characters. -/
abbrev Str := List Char

/-- Convert a Lean string literal to the model type. -/
def str (s : String) : Str := s.toList

/-- The ECMAScript WhiteSpace / LineTerminator set removed by
`String.prototype.trim`: TAB, LF, VT, FF, CR, SP, NBSP, ZWNBSP (U+FEFF),
LS, PS, and the Unicode space separators. -/
def isJsWs (c : Char) : Bool :=
  c = ' ' || c = '\t' || c = '\n' || c = '\r' ||
  c = Char.ofNat 0x0B || c = Char.ofNat 0x0C ||
  c = Char.ofNat 0xA0 || c = Char.ofNat 0x1680 ||
  (0x2000 ≤ c.toNat && c.toNat ≤ 0x200A) ||
  c = Char.ofNat 0x2028 || c = Char.ofNat 0x2029 ||
  c = Char.ofNat 0x202F || c = Char.ofNat 0x205F ||
  c = Char.ofNat 0x3000 || c = Char.ofNat 0xFEFF

/-- A string consisting only of JavaScript whitespace
(a "blank" line in the sense of the sources: `line.trim() === ''`). -/
def allWs (s : Str) : Bool := s.all isJsWs

/-- Remove leading JavaScript whitespace (the left half of `trim()`). -/
def trimL : Str → Str
  | [] => []
  | c :: s => if isJsWs c then trimL s else c :: s

/-- Remove trailing JavaScript whitespace (the right half of `trim()`). -/
def trimR : Str → Str
  | [] => []
  | c :: s =>
    match trimR s with
    | [] => if isJsWs c then [] else [c]
    | r => c :: r

/-- JavaScript `String.prototype.trim`. -/
def jsTrim (s : Str) : Str := trimR (trimL s)

/-- JavaScript `content.split('\n')`: split into newline-separated segments;
the empty string yields one empty segment. -/
def splitNl : Str → List Str
  | [] => [[]]
  | c :: rest =>
    if c = '\n' then [] :: splitNl rest
    else
      match splitNl rest with
      | [] => [[c]]
      | l :: ls => (c :: l) :: ls

/-- JavaScript `lines.join('\n')`. -/
def joinNl : List Str → Str
  | [] => []
  | [l] => l
  | l :: ls => l ++ '\n' :: joinNl ls

/-- JavaScript `s.startsWith(p)` (first argument is the pattern). -/
def hasPfx : Str → Str → Bool
  | [], _ => true
  | _, [] => false
  | p :: ps, c :: cs => p = c && hasPfx ps cs

/-- The first character exists and is not JavaScript whitespace. -/
def firstNonWs (s : Str) : Bool :=
  match s with
  | [] => false
  | c :: _ => !isJsWs c

/-- The last character exists and is not JavaScript whitespace. -/
def lastNonWs (s : Str) : Bool := firstNonWs s.reverse

/-! ## Record parser (`parseEnvFile`, src/unnamed/part_002 lines 31-112) -/

/-- One parsed line of a record file (interface `ParsedLine` in part_002). -/
structure ParsedLine where
  key : Str
  value : Str
  encrypted : Bool
  lineNumber : Nat
  raw : Str
  deriving DecidableEq, Repr

/-- A fully parsed record file (interface `ParsedEnv` in part_002).
The JavaScript `Set` of keys is modelled as a duplicate-free list in
insertion order. -/
structure ParsedEnv where
  lines : List ParsedLine
  keys : List Str
  encryptedCount : Nat
  plaintextCount : Nat
  deriving DecidableEq, Repr

/-- The structural parse failure `ParseError(lineNumber, raw, message)`.
`parseEnvFile` raises no other error class. -/
structure ParseErr where
  lineNumber : Nat
  raw : Str
  msg : Str
  deriving DecidableEq, Repr

instance {ε α : Type} [DecidableEq ε] [DecidableEq α] : DecidableEq (Except ε α)
  | .ok a, .ok b =>
    if h : a = b then .isTrue (by rw [h]) else .isFalse (by simp [h])
  | .error a, .error b =>
    if h : a = b then .isTrue (by rw [h]) else .isFalse (by simp [h])
  | .ok _, .error _ => .isFalse (by simp)
  | .error _, .ok _ => .isFalse (by simp)

/-- `ENCRYPTED_PREFIX` in part_002. -/
def encPfx : Str := str "enc:age:"

/-- `VAULT_PREFIX` in part_002. -/
def vaultPfx : Str := str "vault:"

/-- `isEncryptedValue` (part_002 lines 23-25). -/
def isEncryptedValue (value : Str) : Bool := hasPfx encPfx value

/-- `isVaultReference` (part_002 lines 27-29). -/
def isVaultReference (value : Str) : Bool := hasPfx vaultPfx value

/-- The key part of a trimmed entry line: `trimmed.slice(0, eqIndex)` with
`eqIndex = trimmed.indexOf('=')`. -/
def eqKey (t : Str) : Str := t.takeWhile (fun c => c != '=')

/-- The value part of a trimmed entry line: `trimmed.slice(eqIndex + 1)`. -/
def eqVal (t : Str) : Str := (t.dropWhile (fun c => c != '=')).tail

/-- The loop body of `parseEnvFile` (part_002 lines 43-104), recursing over
the segments of `content.split('\n')` and carrying the accumulators
`parsedLines`, `keys`, `encryptedCount`, `plaintextCount`. -/
def parseLines : List Str → Nat → List ParsedLine → List Str → Nat → Nat →
    Except ParseErr ParsedEnv
  | [], _, acc, keys, ec, pc => .ok ⟨acc, keys, ec, pc⟩
  | raw :: rest, n, acc, keys, ec, pc =>
    let trimmed := jsTrim raw
    if trimmed.isEmpty || hasPfx (str "#") trimmed then
      parseLines rest (n + 1) (acc ++ [⟨[], trimmed, false, n, raw⟩]) keys ec pc
    else if ('=' ∈ trimmed : Bool) = false then
      .error ⟨n, raw, str "Invalid line: missing '=' separator"⟩
    else
      let key := eqKey trimmed
      let value := eqVal trimmed
      if key.isEmpty then
        .error ⟨n, raw, str "Invalid line: missing key before '='"⟩
      else if key ∈ keys then
        .error ⟨n, raw, str "Duplicate key"⟩
      else
        let encrypted := isEncryptedValue value
        parseLines rest (n + 1) (acc ++ [⟨key, value, encrypted, n, raw⟩])
          (keys ++ [key]) (if encrypted then ec + 1 else ec)
          (if encrypted then pc else pc + 1)

/-- `parseEnvFile` (part_002 lines 31-112) applied to the file content
(the missing-file case returns the empty `ParsedEnv` before reading and is
handled by callers passing the empty content). -/
def parseEnvContent (content : Str) : Except ParseErr ParsedEnv :=
  parseLines (splitNl content) 1 [] [] 0 0

/-- `findKey` (part_002 lines 114-121): first line whose key matches. -/
def findKey (env : ParsedEnv) (key : Str) : Option ParsedLine :=
  env.lines.find? (fun l => l.key = key)

/-- The entry lines of a parsed record: those carrying a nonempty key
(blank and comment lines are pushed with `key: ''`). -/
def entryLines (p : ParsedEnv) : List ParsedLine :=
  p.lines.filter (fun l => !l.key.isEmpty)

/-! ## Record mutation (`setKey` / `deleteKey`, part_002 lines 123-189) -/

/-- The match test applied per line by the `setKey` / `deleteKey` loops:
not blank, not a comment, contains `=`, and the text before the first `=`
of the trimmed line equals the key. -/
def lineMatches (k l : Str) : Bool :=
  let t := jsTrim l
  if t.isEmpty || hasPfx (str "#") t then false
  else if ('=' ∈ t : Bool) then eqKey t == k
  else false

/-- One iteration of the `setKey` rewrite loop (part_002 lines 134-151):
a matching line is replaced by `` `${key}=${value}` ``, all others are
pushed verbatim. -/
def setLineRewrite (k v l : Str) : Str :=
  if lineMatches k l then k ++ '=' :: v else l

/-- The final filter in `setKey` / `deleteKey` (part_002 lines 158, 186):
`newLines.filter((l, i) => l.trim() !== '' || i < newLines.length - 1)`
removes the last element exactly when it is blank. -/
def dropFinalBlank : List Str → List Str
  | [] => []
  | [l] => if allWs l then [] else [l]
  | l :: ls => l :: dropFinalBlank ls

/-- `setKey` (part_002 lines 123-161) as a content transformation: rewrite
or append the entry, then `filter(...).join('\n').trim() + '\n'`. -/
def setKeyContent (c k v : Str) : Str :=
  let ls := splitNl c
  let ms := ls.map (setLineRewrite k v)
  let ms := if ls.any (lineMatches k) then ms else ms ++ [k ++ '=' :: v]
  jsTrim (joinNl (dropFinalBlank ms)) ++ ['\n']

/-- `deleteKey` (part_002 lines 163-189) as a content transformation:
drop matching lines, then `filter(...).join('\n').trim() + '\n'`. -/
def deleteKeyContent (c k : Str) : Str :=
  let ls := splitNl c
  let ms := ls.filter (fun l => !lineMatches k l)
  jsTrim (joinNl (dropFinalBlank ms)) ++ ['\n']

/-- Characterization helper: the effect of `trimL` on a newline-join.
Leading all-whitespace lines are absorbed and the first surviving line
loses its leading whitespace. -/
def edgeL : List Str → List Str
  | [] => [[]]
  | [l] => [trimL l]
  | l₁ :: l₂ :: ls => if allWs l₁ then edgeL (l₂ :: ls) else trimL l₁ :: l₂ :: ls

/-- Characterization helper: the effect of `trimR` on a newline-join.
Trailing all-whitespace lines are absorbed and the last surviving line
loses its trailing whitespace. -/
def edgeR : List Str → List Str
  | [] => [[]]
  | [l] => [trimR l]
  | l₁ :: l₂ :: ls =>
    if (l₂ :: ls).all allWs then [trimR l₁] else l₁ :: edgeR (l₂ :: ls)

/-- Well-formedness of a key/value pair handed to `setKey` under which the
written entry line `` `${key}=${value}` `` parses back to the same key:
no newlines, no `=` in the key, the key does not begin with whitespace or
`#`, and the value does not end in whitespace. -/
def goodKV (k v : Str) : Bool :=
  !('\n' ∈ k : Bool) && !('\n' ∈ v : Bool) && !('=' ∈ k : Bool) &&
  (match k with | [] => true | a :: _ => !isJsWs a && !(a = '#' : Bool)) &&
  (match v.getLast? with | none => true | some b => !isJsWs b)

/-- The first line exists and starts with a non-whitespace character
(so the final `trim()` of the rewritten file removes nothing on the left). -/
def edgeOkL : List Str → Bool
  | [] => false
  | d :: _ => firstNonWs d

/-- The last line exists and ends with a non-whitespace character
(so the final `trim()` of the rewritten file removes nothing on the right). -/
def edgeOkR (D : List Str) : Bool :=
  match D.getLast? with
  | none => false
  | some e => lastNonWs e

/-! ## Cross-process lock (`withLock`, part_002 lines 191-224)

`withLock` computes `lockPath = filePath + '.lock'` and loops up to 100
times over `fs.openSync(lockPath, 'wx')`, a create-if-absent primitive that
succeeds exactly when no marker exists at the attempt; on `EEXIST` it
backs off and retries, and when the budget is exhausted it throws the
timeout `FileError`.  Nothing is ever written into the created marker and
an existing marker is never read or unlinked by an acquirer, so marker
availability is purely an external-world function of the attempt index. -/

/-- Errors of the file layer (`FileError` in errors.js): the lock timeout
and the generic I/O failure raised by the atomic writer. -/
inductive FErr where
  | timeout
  | fileErr
  deriving DecidableEq, Repr

/-- The retry loop of `withLock` (part_002 lines 196-210): starting at
attempt `i` with `r` retries left, return the attempt index at which
`openSync(lockPath, 'wx')` first succeeds (the marker is absent), or
`none` when the budget is exhausted. -/
def tryAcquireFrom (avail : Nat → Bool) : Nat → Nat → Option Nat
  | _, 0 => none
  | i, r + 1 => if avail i then some i else tryAcquireFrom avail (i + 1) r

/-- `withLock` (part_002 lines 191-224): run the protected action once the
marker is created, else fail with the timeout `FileError` after 100
attempts.  The second component records whether the protected action ran. -/
def withLockRun {α : Type} (avail : Nat → Bool) (action : α) :
    Except FErr α × Bool :=
  match tryAcquireFrom avail 0 100 with
  | none => (.error .timeout, false)
  | some _ => (.ok action, true)

/-! ## Atomic writer (`writeAtomicRaw`, part_002 lines 232-246; the body of
`writeAtomic` in src/src/parse.ts lines 176-190 is identical) -/

/-- The two filesystem locations `writeAtomicRaw` touches: the destination
`filePath` and the unique temporary sibling `` `${filePath}.tmp.${Date.now()}` ``
(a strictly longer path, hence distinct from the destination).  `none`
means the path does not exist. -/
structure FSState where
  dest : Option Str
  tmp : Option Str
  deriving DecidableEq, Repr

/-- Fault injection for the three fallible steps of `writeAtomicRaw` and
for the best-effort `unlinkSync` in its catch block.  `residue` is the
content the temporary file holds after a failed `writeFileSync` (a failed
write may leave nothing or a partial file). -/
structure Faults where
  writeFails : Bool
  fsyncFails : Bool
  renameFails : Bool
  unlinkFails : Bool
  residue : Option Str
  deriving DecidableEq, Repr

/-- The catch block of `writeAtomicRaw` (part_002 lines 238-245): remove
the temporary file best-effort, then raise `FileError`. -/
def writeAtomicCatch (f : Faults) (st : FSState) : Except FErr Unit × FSState :=
  (.error .fileErr, if f.unlinkFails then st else { st with tmp := none })

/-- `writeAtomicRaw` (part_002 lines 232-246): write the content to the
temporary sibling, fsync it, then rename it over the destination; any
failure runs the catch block. -/
def writeAtomicRaw (f : Faults) (st : FSState) (content : Str) :
    Except FErr Unit × FSState :=
  if f.writeFails then writeAtomicCatch f { st with tmp := f.residue }
  else
    let st1 : FSState := { st with tmp := some content }
    if f.fsyncFails then writeAtomicCatch f st1
    else if f.renameFails then writeAtomicCatch f st1
    else (.ok (), { dest := some content, tmp := none })

/-! ## Secret resolver (`SecenvSDK.get`, src/src/env.ts lines 121-194)

`get` is modelled after `reloadEnv()` has run: the parsed record (if the
file exists), the process environment, the private cache, the vault
lookup oracle (`vaultGet` of a successfully loaded vault, src/src/vault.ts
lines 105-108), and the decryption oracle for `enc:age:` payloads are all
explicit parameters.  The result is the returned value or raised error,
paired with the cache state after the call. -/

/-- A resolver cache entry (interface `CacheEntry` in env.ts). -/
structure CacheEntry where
  value : Str
  decryptedAt : Nat
  deriving DecidableEq, Repr

/-- The error classes `SecenvSDK.get` can raise. -/
inductive ResolveErr where
  | secretNotFound (key : Str)
  | vaultError (msg : Str)
  | identityNotFound
  | decryptionError
  deriving DecidableEq, Repr

/-- The env scan of `get` (env.ts lines 123-128): iterate all bindings,
the last binding of the key wins. -/
def envLookup (procEnv : List (Str × Str)) (key : Str) : Option Str :=
  ((procEnv.filter (fun p => p.1 = key)).getLast?).map (fun p => p.2)

/-- The cache scan of `get` (env.ts lines 136-141): iterate all entries,
the last entry for the key wins. -/
def cacheLookup (cache : List (Str × CacheEntry)) (key : Str) : Option Str :=
  ((cache.filter (fun p => p.1 = key)).getLast?).map (fun p => p.2.value)

/-- JavaScript `Map.prototype.set`: replace the value in place when the key
is present, else append the binding. -/
def cacheSet (cache : List (Str × CacheEntry)) (key : Str) (e : CacheEntry) :
    List (Str × CacheEntry) :=
  if cache.any (fun p => p.1 = key) then
    cache.map (fun p => if p.1 = key then (key, e) else p)
  else cache ++ [(key, e)]

/-- The `VaultError` message built at env.ts lines 163-164 and 187. -/
def vaultMissingMsg (vaultKey key : Str) : Str :=
  str "Vault key '" ++ vaultKey ++ str "' referenced by '" ++ key ++
    str "' not found in global vault."

/-- `SecenvSDK.get` (env.ts lines 121-194) after `reloadEnv()`:
process env first, then the cache, then the parsed record; a plaintext
vault reference delegates to the vault without caching; a plaintext value
is cached and returned; an encrypted value is decrypted, the decrypted
string is stored in the cache (env.ts line 180), and only then is the
vault-reference check applied to it. -/
def sdkGet (procEnv : List (Str × Str)) (parsedEnv : Option ParsedEnv)
    (vault : Str → Option Str) (dec : Str → Except ResolveErr Str) (now : Nat)
    (cache : List (Str × CacheEntry)) (key : Str) :
    Except ResolveErr Str × List (Str × CacheEntry) :=
  match envLookup procEnv key with
  | some v => (.ok v, cache)
  | none =>
  match cacheLookup cache key with
  | some v => (.ok v, cache)
  | none =>
  match parsedEnv with
  | none => (.error (.secretNotFound key), cache)
  | some p =>
  match findKey p key with
  | none => (.error (.secretNotFound key), cache)
  | some line =>
  if hasPfx (str "_") line.key then (.error (.secretNotFound key), cache)
  else if line.encrypted then
    match dec (line.value.drop encPfx.length) with
    | .error e => (.error e, cache)
    | .ok ds =>
      let cache2 := cacheSet cache key ⟨ds, now⟩
      if isVaultReference ds then
        let vk := ds.drop vaultPfx.length
        match vault vk with
        | none => (.error (.vaultError (vaultMissingMsg vk key)), cache2)
        | some vv => (.ok vv, cache2)
      else (.ok ds, cache2)
  else
    if isVaultReference line.value then
      let vk := line.value.drop vaultPfx.length
      match vault vk with
      | none => (.error (.vaultError (vaultMissingMsg vk key)), cache)
      | some vv => (.ok vv, cache)
    else (.ok line.value, cacheSet cache key ⟨line.value, now⟩)

/-! ## Vault store (src/src/vault.ts)

The vault is modelled at the level of its decrypted key-value map: the
process-wide memoized snapshot `vaultCache` and the persisted (decrypted)
on-disk map.  `loadVault` returns the memoized snapshot when present, else
reads the disk (a missing file yields the empty map) and memoizes it;
`saveVault` persists the given map wholesale and memoizes it.  Lock
acquisition inside the mutators is assumed to succeed, and
encryption/decryption round-trips are modelled as the identity on the map,
which is exact for the cache/reload logic the claims are about. -/

/-- The decrypted vault map, in insertion order. -/
abbrev VMap := List (Str × Str)

/-- JavaScript `Map.prototype.get` on the vault map. -/
def vLookup (m : VMap) (k : Str) : Option Str :=
  (m.find? (fun p => p.1 = k)).map (fun p => p.2)

/-- JavaScript `Map.prototype.set` on the vault map. -/
def vSet (m : VMap) (k v : Str) : VMap :=
  if m.any (fun p => p.1 = k) then
    m.map (fun p => if p.1 = k then (k, v) else p)
  else m ++ [(k, v)]

/-- JavaScript `Map.prototype.delete` on the vault map. -/
def vDelete (m : VMap) (k : Str) : VMap :=
  m.filter (fun p => !(p.1 = k : Bool))

/-- Process-wide vault state: the memoized snapshot (`vaultCache`,
vault.ts line 19) and the persisted on-disk map (`none`: no vault file). -/
structure VaultWorld where
  snapshot : Option VMap
  disk : Option VMap
  deriving DecidableEq, Repr

/-- `loadVault` (vault.ts lines 31-72): return the memoized snapshot when
present; else a missing file memoizes and returns the empty map, and an
existing file memoizes and returns its decrypted map. -/
def loadVault (w : VaultWorld) : VMap × VaultWorld :=
  match w.snapshot with
  | some m => (m, w)
  | none =>
    match w.disk with
    | none => ([], { w with snapshot := some [] })
    | some d => (d, { w with snapshot := some d })

/-- `saveVault` (vault.ts lines 77-103): atomically replace the vault file
with the encryption of `data` and memoize `data`. -/
def saveVault (data : VMap) (_w : VaultWorld) : VaultWorld :=
  { snapshot := some data, disk := some data }

/-- `vaultSet` (vault.ts lines 110-121): load (result unused), then under
the lock discard the snapshot, reload fresh from disk, bind the key and
save. -/
def vaultSet (key value : Str) (w : VaultWorld) : VaultWorld :=
  let w1 := (loadVault w).2
  let w2 : VaultWorld := { w1 with snapshot := none }
  let r := loadVault w2
  saveVault (vSet r.1 key value) r.2

/-- `vaultDelete` (vault.ts lines 123-134): load the (possibly memoized)
snapshot and return unchanged when it lacks the key; otherwise under the
lock discard the snapshot, reload fresh, and save only when the key was
actually deleted from the reloaded map. -/
def vaultDelete (key : Str) (w : VaultWorld) : VaultWorld :=
  let c := loadVault w
  if !(c.1.any (fun p => p.1 = key)) then c.2
  else
    let w2 : VaultWorld := { c.2 with snapshot := none }
    let r := loadVault w2
    if r.1.any (fun p => p.1 = key) then saveVault (vDelete r.1 key) r.2
    else r.2

/-! ## Lemmas: split/join -/

theorem splitNl_ne_nil (s : Str) : splitNl s ≠ [] := by
  induction s with
  | nil => simp [splitNl]
  | cons c rest ih =>
    simp only [splitNl]
    split
    · simp
    · split <;> simp

theorem joinNl_cons_cons (x y : Str) (ys : List Str) :
    joinNl (x :: y :: ys) = x ++ '\n' :: joinNl (y :: ys) := rfl

theorem joinNl_splitNl (s : Str) : joinNl (splitNl s) = s := by
  induction s with
  | nil => simp [splitNl, joinNl]
  | cons c rest ih =>
    simp only [splitNl]
    split
    · rename_i hc
      subst hc
      obtain ⟨l, ls, hls⟩ := List.exists_cons_of_ne_nil (splitNl_ne_nil rest)
      rw [hls] at ih ⊢
      rw [joinNl_cons_cons]
      simp [ih]
    · obtain ⟨l, ls, hls⟩ := List.exists_cons_of_ne_nil (splitNl_ne_nil rest)
      rw [hls] at ih ⊢
      cases ls with
      | nil => simpa [joinNl] using congrArg (c :: ·) ih
      | cons y ys =>
        rw [joinNl_cons_cons] at ih ⊢
        simpa using congrArg (c :: ·) ih

theorem nl_not_mem_splitNl (s : Str) : ∀ l ∈ splitNl s, '\n' ∉ l := by
  induction s with
  | nil => simp [splitNl]
  | cons c rest ih =>
    intro l hl
    simp only [splitNl] at hl
    split at hl
    · rcases List.mem_cons.mp hl with h | h
      · simp [h]
      · exact ih l h
    · rename_i hc
      obtain ⟨x, xs, hxs⟩ := List.exists_cons_of_ne_nil (splitNl_ne_nil rest)
      rw [hxs] at hl
      rcases List.mem_cons.mp hl with h | h
      · subst h
        intro hmem
        rcases List.mem_cons.mp hmem with h | h
        · exact hc h.symm
        · exact ih x (hxs ▸ List.mem_cons_self x xs) h
      · exact ih l (hxs ▸ List.mem_cons_of_mem x h)

theorem splitNl_append_cons (a b : Str) (ha : '\n' ∉ a) :
    splitNl (a ++ '\n' :: b) = a :: splitNl b := by
  induction a with
  | nil => simp [splitNl]
  | cons c a' ih =>
    have hc : c ≠ '\n' := fun h => ha (h ▸ List.mem_cons_self c a')
    have ha' : '\n' ∉ a' := fun h => ha (List.mem_cons_of_mem c h)
    simp only [List.cons_append, splitNl, if_neg hc, List.append_eq, ih ha']

theorem splitNl_no_nl (s : Str) (hs : '\n' ∉ s) : splitNl s = [s] := by
  induction s with
  | nil => simp [splitNl]
  | cons c s' ih =>
    have hc : c ≠ '\n' := fun h => hs (h ▸ List.mem_cons_self c s')
    have hs' : '\n' ∉ s' := fun h => hs (List.mem_cons_of_mem c h)
    simp only [splitNl, if_neg hc, ih hs']

theorem splitNl_append_nl (s : Str) : splitNl (s ++ ['\n']) = splitNl s ++ [[]] := by
  induction s with
  | nil => simp [splitNl]
  | cons c s' ih =>
    by_cases hc : c = '\n'
    · subst hc
      simp [splitNl, List.append_eq, ih]
    · obtain ⟨l, ls, hls⟩ := List.exists_cons_of_ne_nil (splitNl_ne_nil s')
      simp only [List.cons_append, splitNl, if_neg hc, List.append_eq, ih, hls,
        List.cons_append]

theorem splitNl_joinNl (ls : List Str) (hne : ls ≠ [])
    (hnl : ∀ l ∈ ls, '\n' ∉ l) : splitNl (joinNl ls) = ls := by
  induction ls with
  | nil => exact absurd rfl hne
  | cons l ls' ih =>
    cases ls' with
    | nil => exact splitNl_no_nl l (hnl l (List.mem_cons_self l []))
    | cons y ys =>
      rw [joinNl_cons_cons,
        splitNl_append_cons l (joinNl (y :: ys)) (hnl l (List.mem_cons_self _ _)),
        ih (by simp) (fun x hx => hnl x (List.mem_cons_of_mem l hx))]

/-! ## Lemmas: trimming -/

theorem allWs_nil : allWs [] = true := rfl

theorem allWs_cons (c : Char) (s : Str) :
    allWs (c :: s) = (isJsWs c && allWs s) := by
  show (c :: s).all isJsWs = _
  rw [List.all_cons]
  rfl

theorem allWs_append (a b : Str) : allWs (a ++ b) = (allWs a && allWs b) := by
  show (a ++ b).all isJsWs = _
  rw [List.all_append]
  rfl

theorem trimL_cons_of_ws {c : Char} (s : Str) (hc : isJsWs c = true) :
    trimL (c :: s) = trimL s := by simp [trimL, hc]

theorem trimL_cons_of_not_ws {c : Char} (s : Str) (hc : isJsWs c = false) :
    trimL (c :: s) = c :: s := by simp [trimL, hc]

theorem trimR_cons (c : Char) (s : Str) :
    trimR (c :: s) = match trimR s with
      | [] => if isJsWs c then [] else [c]
      | r => c :: r := rfl

theorem trimR_cons_of_nil {c : Char} {s : Str} (h : trimR s = []) :
    trimR (c :: s) = if isJsWs c then [] else [c] := by
  rw [trimR_cons, h]

theorem trimR_cons_of_ne_nil {c : Char} {s : Str} (h : trimR s ≠ []) :
    trimR (c :: s) = c :: trimR s := by
  rw [trimR_cons]
  obtain ⟨x, xs, hxs⟩ := List.exists_cons_of_ne_nil h
  rw [hxs]

theorem trimL_eq_nil_iff (s : Str) : trimL s = [] ↔ allWs s = true := by
  induction s with
  | nil => simp [trimL, allWs_nil]
  | cons c s' ih =>
    rw [allWs_cons]
    by_cases hc : isJsWs c = true
    · rw [trimL_cons_of_ws s' hc, hc, Bool.true_and]
      exact ih
    · rw [trimL_cons_of_not_ws s' (by simpa using hc)]
      simp [hc]

theorem trimR_eq_nil_iff (s : Str) : trimR s = [] ↔ allWs s = true := by
  induction s with
  | nil => simp [trimR, allWs_nil]
  | cons c s' ih =>
    rw [allWs_cons]
    by_cases hnil : trimR s' = []
    · rw [trimR_cons_of_nil hnil, ih.mp hnil, Bool.and_true]
      by_cases hc : isJsWs c = true <;> simp [hc]
    · rw [trimR_cons_of_ne_nil hnil]
      have : allWs s' = false := by
        cases h : allWs s'
        · rfl
        · exact absurd (ih.mpr h) hnil
      simp [this]

theorem trimL_idem (s : Str) : trimL (trimL s) = trimL s := by
  induction s with
  | nil => rfl
  | cons c s' ih =>
    by_cases hc : isJsWs c = true
    · rw [trimL_cons_of_ws s' hc, ih]
    · have hcf : isJsWs c = false := by simpa using hc
      rw [trimL_cons_of_not_ws s' hcf, trimL_cons_of_not_ws s' hcf]

theorem trimR_idem (s : Str) : trimR (trimR s) = trimR s := by
  induction s with
  | nil => rfl
  | cons c s' ih =>
    by_cases hnil : trimR s' = []
    · rw [trimR_cons_of_nil hnil]
      by_cases hc : isJsWs c = true <;> simp [hc, trimR]
    · have h2 : trimR (trimR s') ≠ [] := by rw [ih]; exact hnil
      rw [trimR_cons_of_ne_nil hnil, trimR_cons_of_ne_nil h2, ih]

theorem trimL_trimR_comm (s : Str) : trimL (trimR s) = trimR (trimL s) := by
  induction s with
  | nil => rfl
  | cons c s' ih =>
    by_cases hnil : trimR s' = []
    · have hws : allWs s' = true := (trimR_eq_nil_iff s').mp hnil
      by_cases hc : isJsWs c = true
      · rw [trimR_cons_of_nil hnil, if_pos hc, trimL_cons_of_ws s' hc]
        have : trimL s' = [] := (trimL_eq_nil_iff s').mpr hws
        rw [this]
        rfl
      · have hcf : isJsWs c = false := by simpa using hc
        rw [trimR_cons_of_nil hnil, if_neg hc,
          trimL_cons_of_not_ws s' hcf, trimR_cons,
          show trimR s' = [] from hnil, if_neg hc,
          trimL_cons_of_not_ws [] hcf]
    · by_cases hc : isJsWs c = true
      · rw [trimR_cons_of_ne_nil hnil, trimL_cons_of_ws (trimR s') hc,
          trimL_cons_of_ws s' hc, ih]
      · have hcf : isJsWs c = false := by simpa using hc
        rw [trimR_cons_of_ne_nil hnil, trimL_cons_of_not_ws (trimR s') hcf,
          trimL_cons_of_not_ws s' hcf, trimR_cons_of_ne_nil hnil]

theorem jsTrim_idem (s : Str) : jsTrim (jsTrim s) = jsTrim s := by
  unfold jsTrim
  rw [trimL_trimR_comm, trimL_idem, trimR_idem]

theorem jsTrim_trimL (s : Str) : jsTrim (trimL s) = jsTrim s := by
  unfold jsTrim
  rw [trimL_idem]

theorem jsTrim_trimR (s : Str) : jsTrim (trimR s) = jsTrim s := by
  unfold jsTrim
  rw [trimL_trimR_comm, trimR_idem]

theorem jsTrim_ws_cons {c : Char} (s : Str) (hc : isJsWs c = true) :
    jsTrim (c :: s) = jsTrim s := by
  unfold jsTrim
  rw [trimL_cons_of_ws s hc]

theorem trimL_append (a b : Str) :
    trimL (a ++ b) = if allWs a then trimL b else trimL a ++ b := by
  induction a with
  | nil => simp [allWs_nil]
  | cons c a' ih =>
    rw [allWs_cons]
    by_cases hc : isJsWs c = true
    · rw [List.cons_append, trimL_cons_of_ws _ hc, ih, trimL_cons_of_ws _ hc, hc,
        Bool.true_and]
    · have hcf : isJsWs c = false := by simpa using hc
      rw [List.cons_append, trimL_cons_of_not_ws _ hcf,
        trimL_cons_of_not_ws _ hcf, hcf, Bool.false_and, if_neg (by simp),
        List.cons_append]

theorem trimR_append (a b : Str) :
    trimR (a ++ b) = if allWs b then trimR a else a ++ trimR b := by
  induction a with
  | nil =>
    by_cases hb : allWs b = true
    · simp [hb, trimR, (trimR_eq_nil_iff b).mpr hb]
    · simp [hb]
  | cons c a' ih =>
    by_cases hb : allWs b = true
    · have ih' : trimR (a' ++ b) = trimR a' := by rw [ih, if_pos hb]
      rw [if_pos hb, List.cons_append, trimR_cons, ih', trimR_cons]
    · have ih' : trimR (a' ++ b) = a' ++ trimR b := by rw [ih, if_neg hb]
      have hrb : trimR b ≠ [] := fun h => hb ((trimR_eq_nil_iff b).mp h)
      have hne : trimR (a' ++ b) ≠ [] := by
        rw [ih']
        simp [hrb]
      rw [if_neg hb, List.cons_append, trimR_cons_of_ne_nil hne, ih',
        List.cons_append]

theorem mem_trimL {a : Char} {s : Str} (h : a ∈ trimL s) : a ∈ s := by
  induction s with
  | nil => simp [trimL] at h
  | cons c s' ih =>
    by_cases hc : isJsWs c = true
    · rw [trimL_cons_of_ws s' hc] at h
      exact List.mem_cons_of_mem c (ih h)
    · rwa [trimL_cons_of_not_ws s' (by simpa using hc)] at h

theorem mem_trimR {a : Char} {s : Str} (h : a ∈ trimR s) : a ∈ s := by
  induction s with
  | nil => simp [trimR] at h
  | cons c s' ih =>
    by_cases hnil : trimR s' = []
    · rw [trimR_cons_of_nil hnil] at h
      by_cases hc : isJsWs c = true
      · simp [hc] at h
      · rw [if_neg hc, List.mem_singleton] at h
        simp [h]
    · rw [trimR_cons_of_ne_nil hnil] at h
      rcases List.mem_cons.mp h with h | h
      · simp [h]
      · exact List.mem_cons_of_mem c (ih h)

theorem trimL_eq_self_of_firstNonWs {s : Str} (h : firstNonWs s = true) :
    trimL s = s := by
  cases s with
  | nil => rfl
  | cons c s' =>
    simp only [firstNonWs, Bool.not_eq_true'] at h
    exact trimL_cons_of_not_ws s' h

theorem trimR_eq_self_of_lastNonWs {s : Str} (h : lastNonWs s = true) :
    trimR s = s := by
  rcases List.eq_nil_or_concat s with rfl | ⟨a, c, rfl⟩
  · rfl
  · unfold lastNonWs at h
    rw [List.concat_eq_append, List.reverse_append, List.reverse_singleton,
      List.singleton_append] at h
    simp only [firstNonWs, Bool.not_eq_true'] at h
    rw [List.concat_eq_append, trimR_append]
    have : allWs [c] = false := by
      rw [allWs_cons, allWs_nil, h]
      rfl
    rw [this, if_neg (by simp)]
    have hc1 : trimR [c] = [c] := by simp [trimR, h]
    rw [hc1]

theorem jsTrim_eq_self_of_edges {s : Str} (h1 : firstNonWs s = true)
    (h2 : lastNonWs s = true) : jsTrim s = s := by
  unfold jsTrim
  rw [trimL_eq_self_of_firstNonWs h1, trimR_eq_self_of_lastNonWs h2]

/-! ## Lemmas: edges of newline joins -/

theorem firstNonWs_append_left {a : Str} (b : Str) (ha : a ≠ []) :
    firstNonWs (a ++ b) = firstNonWs a := by
  cases a with
  | nil => exact absurd rfl ha
  | cons c t => rfl

theorem firstNonWs_joinNl {d : Str} (ds : List Str)
    (hd : firstNonWs d = true) : firstNonWs (joinNl (d :: ds)) = true := by
  have hdne : d ≠ [] := by
    cases d
    · simp [firstNonWs] at hd
    · simp
  cases ds with
  | nil => exact hd
  | cons y ys =>
    rw [joinNl_cons_cons, firstNonWs_append_left _ hdne]
    exact hd

theorem joinNl_concat (ds : List Str) (e : Str) (hne : ds ≠ []) :
    joinNl (ds ++ [e]) = joinNl ds ++ '\n' :: e := by
  induction ds with
  | nil => exact absurd rfl hne
  | cons d ds' ih =>
    cases ds' with
    | nil => rfl
    | cons y ys =>
      conv_lhs => rw [show (d :: y :: ys) ++ [e] = d :: y :: (ys ++ [e]) from rfl,
        joinNl_cons_cons, ← List.cons_append]
      rw [ih (by simp), joinNl_cons_cons]
      simp

theorem lastNonWs_append_right (a : Str) {e : Str} (he : e ≠ []) :
    lastNonWs (a ++ e) = lastNonWs e := by
  unfold lastNonWs
  rw [List.reverse_append]
  exact firstNonWs_append_left _ (by simpa using he)

theorem lastNonWs_cons_of_ne_nil (c : Char) {e : Str} (he : e ≠ []) :
    lastNonWs (c :: e) = lastNonWs e := by
  unfold lastNonWs
  rw [List.reverse_cons]
  exact firstNonWs_append_left _ (by simpa using he)

theorem lastNonWs_joinNl {e : Str} (ds : List Str)
    (he : lastNonWs e = true) : lastNonWs (joinNl (ds ++ [e])) = true := by
  have hene : e ≠ [] := by
    cases e
    · simp [lastNonWs, firstNonWs] at he
    · simp
  cases ds with
  | nil => exact he
  | cons d ds' =>
    rw [joinNl_concat _ _ (by simp),
      lastNonWs_append_right _ (show ('\n' :: e : Str) ≠ [] by simp),
      lastNonWs_cons_of_ne_nil _ hene]
    exact he

theorem allWs_joinNl (ls : List Str) :
    allWs (joinNl ls) = ls.all allWs := by
  induction ls with
  | nil => rfl
  | cons l ls' ih =>
    cases ls' with
    | nil => simp [joinNl]
    | cons y ys =>
      rw [joinNl_cons_cons, allWs_append, List.all_cons, allWs_cons, ih]
      have hnl : isJsWs '\n' = true := by decide
      rw [hnl, Bool.true_and]

theorem edgeL_ne_nil (ls : List Str) : edgeL ls ≠ [] := by
  induction ls with
  | nil => simp [edgeL]
  | cons l ls' ih =>
    cases ls' with
    | nil => simp [edgeL]
    | cons y ys =>
      simp only [edgeL]
      split
      · exact ih
      · simp

theorem edgeR_ne_nil (ls : List Str) : edgeR ls ≠ [] := by
  induction ls with
  | nil => simp [edgeR]
  | cons l ls' ih =>
    cases ls' with
    | nil => simp [edgeR]
    | cons y ys =>
      simp only [edgeR]
      split
      · simp
      · simp

theorem splitNl_trimL_joinNl (D : List Str) (hne : D ≠ [])
    (hnl : ∀ l ∈ D, '\n' ∉ l) :
    splitNl (trimL (joinNl D)) = edgeL D := by
  induction D with
  | nil => exact absurd rfl hne
  | cons l ls ih =>
    cases ls with
    | nil =>
      show splitNl (trimL (joinNl [l])) = [trimL l]
      exact splitNl_no_nl _ (fun h => hnl l (List.mem_cons_self _ _) (mem_trimL h))
    | cons y ys =>
      rw [joinNl_cons_cons, trimL_append]
      by_cases hws : allWs l = true
      · rw [if_pos hws]
        have : trimL ('\n' :: joinNl (y :: ys)) = trimL (joinNl (y :: ys)) :=
          trimL_cons_of_ws _ (by decide)
        rw [this, ih (by simp) (fun x hx => hnl x (List.mem_cons_of_mem l hx))]
        simp only [edgeL, if_pos hws]
      · rw [if_neg hws]
        have hl : '\n' ∉ trimL l :=
          fun h => hnl l (List.mem_cons_self _ _) (mem_trimL h)
        rw [splitNl_append_cons _ _ hl,
          splitNl_joinNl (y :: ys) (by simp)
            (fun x hx => hnl x (List.mem_cons_of_mem l hx))]
        simp only [edgeL, if_neg hws]

theorem splitNl_trimR_joinNl (D : List Str) (hne : D ≠ [])
    (hnl : ∀ l ∈ D, '\n' ∉ l) :
    splitNl (trimR (joinNl D)) = edgeR D := by
  induction D with
  | nil => exact absurd rfl hne
  | cons l ls ih =>
    cases ls with
    | nil =>
      show splitNl (trimR (joinNl [l])) = [trimR l]
      exact splitNl_no_nl _ (fun h => hnl l (List.mem_cons_self _ _) (mem_trimR h))
    | cons y ys =>
      rw [joinNl_cons_cons, trimR_append]
      have hb : allWs ('\n' :: joinNl (y :: ys)) = (y :: ys).all allWs := by
        rw [allWs_cons, allWs_joinNl, show isJsWs '\n' = true from by decide,
          Bool.true_and]
      by_cases hws : (y :: ys).all allWs = true
      · rw [hb, if_pos hws]
        have : edgeR (l :: y :: ys) = [trimR l] := by
          simp only [edgeR, if_pos hws]
        rw [this]
        exact splitNl_no_nl _
          (fun h => hnl l (List.mem_cons_self _ _) (mem_trimR h))
      · rw [hb, if_neg hws]
        have hjne : trimR (joinNl (y :: ys)) ≠ [] := by
          intro h
          have := (trimR_eq_nil_iff _).mp h
          rw [allWs_joinNl] at this
          exact hws this
        rw [trimR_cons_of_ne_nil hjne,
          splitNl_append_cons _ _ (fun h => hnl l (List.mem_cons_self _ _) h),
          ih (by simp) (fun x hx => hnl x (List.mem_cons_of_mem l hx))]
        simp only [edgeR, if_neg hws]

theorem mem_edgeL {D : List Str} (hne : D ≠ []) {z : Str} (hz : z ∈ edgeL D) :
    ∃ x ∈ D, z = x ∨ z = trimL x := by
  induction D with
  | nil => exact absurd rfl hne
  | cons l ls ih =>
    cases ls with
    | nil =>
      rw [show edgeL [l] = [trimL l] from rfl, List.mem_singleton] at hz
      exact ⟨l, List.mem_cons_self _ _, Or.inr hz⟩
    | cons y ys =>
      simp only [edgeL] at hz
      split at hz
      · obtain ⟨x, hx, hor⟩ := ih (by simp) hz
        exact ⟨x, List.mem_cons_of_mem l hx, hor⟩
      · rcases List.mem_cons.mp hz with h | h
        · exact ⟨l, List.mem_cons_self _ _, Or.inr h⟩
        · exact ⟨z, List.mem_cons_of_mem l h, Or.inl rfl⟩

theorem mem_edgeR {D : List Str} (hne : D ≠ []) {z : Str} (hz : z ∈ edgeR D) :
    ∃ x ∈ D, z = x ∨ z = trimR x := by
  induction D with
  | nil => exact absurd rfl hne
  | cons l ls ih =>
    cases ls with
    | nil =>
      rw [show edgeR [l] = [trimR l] from rfl, List.mem_singleton] at hz
      exact ⟨l, List.mem_cons_self _ _, Or.inr hz⟩
    | cons y ys =>
      simp only [edgeR] at hz
      split at hz
      · rw [List.mem_singleton] at hz
        exact ⟨l, List.mem_cons_self _ _, Or.inr hz⟩
      · rcases List.mem_cons.mp hz with h | h
        · exact ⟨l, List.mem_cons_self _ _, Or.inl h⟩
        · obtain ⟨x, hx, hor⟩ := ih (by simp) h
          exact ⟨x, List.mem_cons_of_mem l hx, hor⟩

theorem self_mem_edgeL {D : List Str} {x : Str} (hx : x ∈ D)
    (hws : allWs x = false) (hst : trimL x = x) : x ∈ edgeL D := by
  induction D with
  | nil => simp at hx
  | cons l ls ih =>
    cases ls with
    | nil =>
      rw [List.mem_singleton] at hx
      subst hx
      rw [show edgeL [x] = [trimL x] from rfl, hst]
      exact List.mem_singleton.mpr rfl
    | cons y ys =>
      simp only [edgeL]
      split
      · rename_i hl
        rcases List.mem_cons.mp hx with h | h
        · subst h
          rw [hl] at hws
          simp at hws
        · exact ih h
      · rcases List.mem_cons.mp hx with h | h
        · subst h
          rw [hst]
          exact List.mem_cons_self _ _
        · exact List.mem_cons_of_mem _ h

theorem self_mem_edgeR {D : List Str} {x : Str} (hx : x ∈ D)
    (hws : allWs x = false) (hst : trimR x = x) : x ∈ edgeR D := by
  induction D with
  | nil => simp at hx
  | cons l ls ih =>
    cases ls with
    | nil =>
      rw [List.mem_singleton] at hx
      subst hx
      rw [show edgeR [x] = [trimR x] from rfl, hst]
      exact List.mem_singleton.mpr rfl
    | cons y ys =>
      simp only [edgeR]
      split
      · rename_i hall
        rcases List.mem_cons.mp hx with h | h
        · subst h
          rw [hst]
          exact List.mem_singleton.mpr rfl
        · have hxt : allWs x = true := List.all_eq_true.mp hall _ h
          rw [hxt] at hws
          simp at hws
      · rcases List.mem_cons.mp hx with h | h
        · subst h
          exact List.mem_cons_self _ _
        · exact List.mem_cons_of_mem _ (ih h)

theorem edgeL_nl_free {D : List Str} (hne : D ≠ [])
    (hnl : ∀ l ∈ D, '\n' ∉ l) : ∀ z ∈ edgeL D, '\n' ∉ z := by
  intro z hz
  obtain ⟨x, hx, hor⟩ := mem_edgeL hne hz
  rcases hor with h | h
  · rw [h]
    exact hnl x hx
  · rw [h]
    exact fun hm => hnl x hx (mem_trimL hm)

theorem splitNl_jsTrim_joinNl (D : List Str) (hne : D ≠ [])
    (hnl : ∀ l ∈ D, '\n' ∉ l) :
    splitNl (jsTrim (joinNl D)) = edgeR (edgeL D) := by
  unfold jsTrim
  have h1 : splitNl (trimL (joinNl D)) = edgeL D := splitNl_trimL_joinNl D hne hnl
  have h2 : trimL (joinNl D) = joinNl (edgeL D) := by
    have := congrArg joinNl h1
    rwa [joinNl_splitNl] at this
  rw [h2]
  exact splitNl_trimR_joinNl (edgeL D) (edgeL_ne_nil D) (edgeL_nl_free hne hnl)

/-! ## Lemmas: the setKey/deleteKey line loop -/

theorem lineMatches_trimL (k l : Str) :
    lineMatches k (trimL l) = lineMatches k l := by
  unfold lineMatches
  rw [jsTrim_trimL]

theorem lineMatches_trimR (k l : Str) :
    lineMatches k (trimR l) = lineMatches k l := by
  unfold lineMatches
  rw [jsTrim_trimR]

theorem setLineRewrite_of_not {k v l : Str} (h : lineMatches k l = false) :
    setLineRewrite k v l = l := by
  simp [setLineRewrite, h]

theorem setLineRewrite_of_matches {k v l : Str} (h : lineMatches k l = true) :
    setLineRewrite k v l = k ++ '=' :: v := by
  simp [setLineRewrite, h]

theorem goodKV_spec {k v : Str} (h : goodKV k v = true) :
    ('\n' ∉ k) ∧ ('\n' ∉ v) ∧ ('=' ∉ k) ∧
    (∀ a t, k = a :: t → isJsWs a = false ∧ a ≠ '#') ∧
    (∀ b, v.getLast? = some b → isJsWs b = false) := by
  unfold goodKV at h
  simp only [Bool.and_eq_true, Bool.not_eq_true', decide_eq_false_iff_not] at h
  obtain ⟨⟨⟨⟨h1, h2⟩, h3⟩, h4⟩, h5⟩ := h
  refine ⟨h1, h2, h3, ?_, ?_⟩
  · intro a t hk
    subst hk
    simp only [Bool.and_eq_true, Bool.not_eq_true', decide_eq_false_iff_not] at h4
    exact ⟨h4.1, h4.2⟩
  · intro b hb
    rw [hb] at h5
    simpa using h5

theorem eqKey_entry {k : Str} (v : Str) (hk : '=' ∉ k) :
    eqKey (k ++ '=' :: v) = k := by
  induction k with
  | nil => simp [eqKey]
  | cons a k' ih =>
    have ha : a ≠ '=' := fun h => hk (h ▸ List.mem_cons_self a k')
    have hk' : '=' ∉ k' := fun h => hk (List.mem_cons_of_mem a h)
    have hpa : ((a != '=') : Bool) = true := bne_iff_ne.mpr ha
    have ih' := ih hk'
    simp only [eqKey] at ih'
    simp [eqKey, List.cons_append, List.takeWhile_cons, hpa, ih']

theorem eqVal_entry {k : Str} (v : Str) (hk : '=' ∉ k) :
    eqVal (k ++ '=' :: v) = v := by
  induction k with
  | nil => simp [eqVal]
  | cons a k' ih =>
    have ha : a ≠ '=' := fun h => hk (h ▸ List.mem_cons_self a k')
    have hk' : '=' ∉ k' := fun h => hk (List.mem_cons_of_mem a h)
    have hpa : ((a != '=') : Bool) = true := bne_iff_ne.mpr ha
    have ih' := ih hk'
    simp only [eqVal] at ih'
    simp [eqVal, List.cons_append, List.dropWhile_cons, hpa, ih']

theorem entry_trimL {k v : Str} (h : goodKV k v = true) :
    trimL (k ++ '=' :: v) = k ++ '=' :: v := by
  obtain ⟨-, -, -, h4, -⟩ := goodKV_spec h
  cases k with
  | nil => exact trimL_cons_of_not_ws v (by decide)
  | cons a t =>
    exact trimL_cons_of_not_ws _ (h4 a t rfl).1

theorem entry_trimR {k v : Str} (h : goodKV k v = true) :
    trimR (k ++ '=' :: v) = k ++ '=' :: v := by
  obtain ⟨-, -, -, -, h5⟩ := goodKV_spec h
  apply trimR_eq_self_of_lastNonWs
  rcases List.eq_nil_or_concat v with rfl | ⟨v', b, rfl⟩
  · rw [lastNonWs_append_right k (show (['='] : Str) ≠ [] by simp)]
    decide
  · rw [List.concat_eq_append, lastNonWs_append_right k
      (show ('=' :: (v' ++ [b]) : Str) ≠ [] by simp),
      lastNonWs_cons_of_ne_nil _ (show (v' ++ [b] : Str) ≠ [] by simp),
      lastNonWs_append_right v' (show ([b] : Str) ≠ [] by simp)]
    have hb : isJsWs b = false := h5 b (by simp)
    simp [lastNonWs, firstNonWs, hb]

theorem entry_jsTrim {k v : Str} (h : goodKV k v = true) :
    jsTrim (k ++ '=' :: v) = k ++ '=' :: v := by
  unfold jsTrim
  rw [entry_trimL h, entry_trimR h]

theorem entry_not_allWs (k v : Str) : allWs (k ++ '=' :: v) = false := by
  rw [allWs_append, allWs_cons]
  have : isJsWs '=' = false := by decide
  rw [this]
  simp

theorem entry_matches {k v : Str} (h : goodKV k v = true) :
    lineMatches k (k ++ '=' :: v) = true := by
  obtain ⟨-, -, h3, h4, -⟩ := goodKV_spec h
  unfold lineMatches
  rw [entry_jsTrim h]
  have hne : (k ++ '=' :: v : Str).isEmpty = false := by
    cases k <;> rfl
  have hcm : hasPfx (str "#") (k ++ '=' :: v) = false := by
    have hsh : str "#" = ['#'] := rfl
    rw [hsh]
    cases k with
    | nil =>
      show hasPfx ['#'] ('=' :: v) = false
      simp [hasPfx]
    | cons a t =>
      have hne2 := (h4 a t rfl).2
      have hne3 : ¬('#' = a) := fun hh => hne2 hh.symm
      show hasPfx ['#'] (a :: (t ++ '=' :: v)) = false
      simp [hasPfx, hne3]
  have hmem : '=' ∈ (k ++ '=' :: v : Str) :=
    List.mem_append.mpr (Or.inr (List.mem_cons_self _ _))
  simp [hne, hcm, hmem, eqKey_entry v h3]

theorem mem_map_rewrite_matches {k v x : Str} {ls : List Str}
    (hx : x ∈ ls.map (setLineRewrite k v)) (hmx : lineMatches k x = true) :
    x = k ++ '=' :: v := by
  obtain ⟨y, hy, hxy⟩ := List.mem_map.mp hx
  cases hmy : lineMatches k y with
  | true => rw [← hxy, setLineRewrite_of_matches hmy]
  | false =>
    rw [setLineRewrite_of_not hmy] at hxy
    rw [← hxy] at hmx
    rw [hmy] at hmx
    exact absurd hmx (by simp)

theorem dropFinalBlank_cons_of_ne_nil {ls : List Str} (x : Str) (h : ls ≠ []) :
    dropFinalBlank (x :: ls) = x :: dropFinalBlank ls := by
  cases ls with
  | nil => exact absurd rfl h
  | cons y ys => rfl

theorem dropFinalBlank_concat (xs : List Str) (y : Str) :
    dropFinalBlank (xs ++ [y]) = if allWs y then xs else xs ++ [y] := by
  induction xs with
  | nil => rfl
  | cons x xs' ih =>
    rw [List.cons_append, dropFinalBlank_cons_of_ne_nil x (by simp), ih]
    by_cases hy : allWs y = true
    · rw [if_pos hy, if_pos hy]
    · rw [if_neg hy, if_neg hy]

theorem mem_of_mem_dropFinalBlank {x : Str} {ls : List Str}
    (h : x ∈ dropFinalBlank ls) : x ∈ ls := by
  induction ls with
  | nil => simp [dropFinalBlank] at h
  | cons y ys ih =>
    cases ys with
    | nil =>
      simp only [dropFinalBlank] at h
      split at h
      · simp at h
      · exact h
    | cons z zs =>
      rw [dropFinalBlank_cons_of_ne_nil y (by simp)] at h
      rcases List.mem_cons.mp h with h | h
      · simp [h]
      · exact List.mem_cons_of_mem y (ih h)

theorem mem_dropFinalBlank_of_not_ws {x : Str} {ls : List Str} (hx : x ∈ ls)
    (hws : allWs x = false) : x ∈ dropFinalBlank ls := by
  rcases List.eq_nil_or_concat ls with rfl | ⟨xs, y, rfl⟩
  · simp at hx
  · rw [List.concat_eq_append, dropFinalBlank_concat]
    by_cases hy : allWs y = true
    · rw [if_pos hy]
      rw [List.concat_eq_append] at hx
      rcases List.mem_append.mp hx with h | h
      · exact h
      · rw [List.mem_singleton] at h
        subst h
        rw [hy] at hws
        simp at hws
    · rw [if_neg hy]
      rw [List.concat_eq_append] at hx
      exact hx

/-! ## Lemmas: structure of the file written by setKey -/

theorem listMapSelf {α : Type} (f : α → α) (l : List α)
    (h : ∀ x ∈ l, f x = x) : l.map f = l := by
  induction l with
  | nil => rfl
  | cons a l' ih =>
    rw [List.map_cons, h a (List.mem_cons_self a l'),
      ih (fun x hx => h x (List.mem_cons_of_mem a hx))]

theorem lineMatches_nil (k : Str) : lineMatches k [] = false := rfl

theorem setKey_out_split (k v c : Str) (h : goodKV k v = true) :
    ∃ E : List Str,
      splitNl (setKeyContent c k v) = E ++ [[]] ∧
      setKeyContent c k v = joinNl E ++ ['\n'] ∧
      jsTrim (joinNl E) = joinNl E ∧
      (k ++ '=' :: v) ∈ E ∧
      (∀ x ∈ E, lineMatches k x = true → x = k ++ '=' :: v) := by
  obtain ⟨hnk, hnv, hek, hhead, hlast⟩ := goodKV_spec h
  have hLnl : '\n' ∉ (k ++ '=' :: v : Str) := by
    intro hm
    rcases List.mem_append.mp hm with hm | hm
    · exact hnk hm
    · rcases List.mem_cons.mp hm with hm | hm
      · exact absurd hm (by decide)
      · exact hnv hm
  have hLm : lineMatches k (k ++ '=' :: v) = true := entry_matches h
  have hLtl : trimL (k ++ '=' :: v) = k ++ '=' :: v := entry_trimL h
  have hLtr : trimR (k ++ '=' :: v) = k ++ '=' :: v := entry_trimR h
  have hLws : allWs (k ++ '=' :: v) = false := entry_not_allWs k v
  have hdef : setKeyContent c k v =
      jsTrim (joinNl (dropFinalBlank
        (if (splitNl c).any (lineMatches k)
         then (splitNl c).map (setLineRewrite k v)
         else (splitNl c).map (setLineRewrite k v) ++ [k ++ '=' :: v]))) ++
      ['\n'] := rfl
  have hmsL : (k ++ '=' :: v) ∈
      (if (splitNl c).any (lineMatches k)
       then (splitNl c).map (setLineRewrite k v)
       else (splitNl c).map (setLineRewrite k v) ++ [k ++ '=' :: v]) := by
    by_cases hf : (splitNl c).any (lineMatches k) = true
    · rw [if_pos hf]
      obtain ⟨y, hy, hmy⟩ := List.any_eq_true.mp hf
      exact List.mem_map.mpr ⟨y, hy, setLineRewrite_of_matches hmy⟩
    · rw [if_neg hf]
      exact List.mem_append.mpr (Or.inr (List.mem_singleton.mpr rfl))
  have hmsMatch : ∀ x ∈
      (if (splitNl c).any (lineMatches k)
       then (splitNl c).map (setLineRewrite k v)
       else (splitNl c).map (setLineRewrite k v) ++ [k ++ '=' :: v]),
      lineMatches k x = true → x = k ++ '=' :: v := by
    intro x hx hmx
    by_cases hf : (splitNl c).any (lineMatches k) = true
    · rw [if_pos hf] at hx
      exact mem_map_rewrite_matches hx hmx
    · rw [if_neg hf] at hx
      rcases List.mem_append.mp hx with hx | hx
      · exact mem_map_rewrite_matches hx hmx
      · exact List.mem_singleton.mp hx
  have hmsNl : ∀ x ∈
      (if (splitNl c).any (lineMatches k)
       then (splitNl c).map (setLineRewrite k v)
       else (splitNl c).map (setLineRewrite k v) ++ [k ++ '=' :: v]),
      '\n' ∉ x := by
    intro x hx
    have hmap : ∀ y ∈ (splitNl c).map (setLineRewrite k v), '\n' ∉ y := by
      intro y hy
      obtain ⟨z, hz, hzy⟩ := List.mem_map.mp hy
      cases hm : lineMatches k z with
      | true =>
        rw [← hzy, setLineRewrite_of_matches hm]
        exact hLnl
      | false =>
        rw [← hzy, setLineRewrite_of_not hm]
        exact nl_not_mem_splitNl c z hz
    by_cases hf : (splitNl c).any (lineMatches k) = true
    · rw [if_pos hf] at hx
      exact hmap x hx
    · rw [if_neg hf] at hx
      rcases List.mem_append.mp hx with hx | hx
      · exact hmap x hx
      · rw [List.mem_singleton.mp hx]
        exact hLnl
  have hLD : (k ++ '=' :: v) ∈ dropFinalBlank
      (if (splitNl c).any (lineMatches k)
       then (splitNl c).map (setLineRewrite k v)
       else (splitNl c).map (setLineRewrite k v) ++ [k ++ '=' :: v]) :=
    mem_dropFinalBlank_of_not_ws hmsL hLws
  have hDne : dropFinalBlank
      (if (splitNl c).any (lineMatches k)
       then (splitNl c).map (setLineRewrite k v)
       else (splitNl c).map (setLineRewrite k v) ++ [k ++ '=' :: v]) ≠ [] :=
    List.ne_nil_of_mem hLD
  have hDnl : ∀ l ∈ dropFinalBlank
      (if (splitNl c).any (lineMatches k)
       then (splitNl c).map (setLineRewrite k v)
       else (splitNl c).map (setLineRewrite k v) ++ [k ++ '=' :: v]),
      '\n' ∉ l := fun l hl => hmsNl l (mem_of_mem_dropFinalBlank hl)
  refine ⟨edgeR (edgeL (dropFinalBlank
      (if (splitNl c).any (lineMatches k)
       then (splitNl c).map (setLineRewrite k v)
       else (splitNl c).map (setLineRewrite k v) ++ [k ++ '=' :: v]))),
    ?_, ?_, ?_, ?_, ?_⟩
  · rw [hdef, splitNl_append_nl, splitNl_jsTrim_joinNl _ hDne hDnl]
  · rw [hdef]
    have := congrArg joinNl (splitNl_jsTrim_joinNl _ hDne hDnl)
    rw [joinNl_splitNl] at this
    rw [← this]
  · have := congrArg joinNl (splitNl_jsTrim_joinNl _ hDne hDnl)
    rw [joinNl_splitNl] at this
    rw [← this, jsTrim_idem]
  · exact self_mem_edgeR
      (self_mem_edgeL hLD hLws hLtl) hLws hLtr
  · intro x hx hmx
    obtain ⟨x1, hx1, hor1⟩ := mem_edgeR (edgeL_ne_nil _) hx
    have hmx1 : lineMatches k x1 = true := by
      rcases hor1 with he | he
      · rwa [← he]
      · rw [he, lineMatches_trimR] at hmx
        exact hmx
    obtain ⟨x2, hx2, hor2⟩ := mem_edgeL hDne hx1
    have hmx2 : lineMatches k x2 = true := by
      rcases hor2 with he | he
      · rwa [← he]
      · rw [he, lineMatches_trimL] at hmx1
        exact hmx1
    have hx2L : x2 = k ++ '=' :: v :=
      hmsMatch x2 (mem_of_mem_dropFinalBlank hx2) hmx2
    have hx1L : x1 = k ++ '=' :: v := by
      rcases hor2 with he | he
      · rw [he, hx2L]
      · rw [he, hx2L, hLtl]
    rcases hor1 with he | he
    · rw [he, hx1L]
    · rw [he, hx1L, hLtr]

theorem setKeyContent_idem (k v c : Str) (h : goodKV k v = true) :
    setKeyContent (setKeyContent c k v) k v = setKeyContent c k v := by
  obtain ⟨E, h1, h2, h3, h4, h5⟩ := setKey_out_split k v c h
  have hLm : lineMatches k (k ++ '=' :: v) = true := entry_matches h
  have hdef2 : setKeyContent (setKeyContent c k v) k v =
      jsTrim (joinNl (dropFinalBlank
        (if (splitNl (setKeyContent c k v)).any (lineMatches k)
         then (splitNl (setKeyContent c k v)).map (setLineRewrite k v)
         else (splitNl (setKeyContent c k v)).map (setLineRewrite k v) ++
           [k ++ '=' :: v]))) ++ ['\n'] := rfl
  have hfound2 : (E ++ [([] : Str)]).any (lineMatches k) = true :=
    List.any_eq_true.mpr ⟨k ++ '=' :: v, List.mem_append_left _ h4, hLm⟩
  have hmap2 : (E ++ [([] : Str)]).map (setLineRewrite k v) = E ++ [[]] := by
    apply listMapSelf
    intro x hx
    rcases List.mem_append.mp hx with hx | hx
    · cases hm : lineMatches k x with
      | true =>
        rw [setLineRewrite_of_matches hm, ← h5 x hx hm]
      | false => exact setLineRewrite_of_not hm
    · rw [List.mem_singleton.mp hx]
      exact setLineRewrite_of_not (lineMatches_nil k)
  rw [hdef2, h1, if_pos hfound2, hmap2, dropFinalBlank_concat,
    if_pos (show allWs ([] : Str) = true from rfl), h3, ← h2]

theorem jsTrim_joinNl_of_edges (D : List Str) (h1 : edgeOkL D = true)
    (h2 : edgeOkR D = true) : jsTrim (joinNl D) = joinNl D := by
  cases D with
  | nil => exact absurd h1 (by simp [edgeOkL])
  | cons d ds =>
    apply jsTrim_eq_self_of_edges
    · exact firstNonWs_joinNl ds (by simpa [edgeOkL] using h1)
    · rcases List.eq_nil_or_concat (d :: ds) with hcon | ⟨ds2, e, hcon⟩
      · simp at hcon
      · unfold edgeOkR at h2
        rw [hcon, List.concat_eq_append] at h2
        have hg : (ds2 ++ [e] : List Str).getLast? = some e := by simp
        rw [hg] at h2
        rw [hcon, List.concat_eq_append]
        exact lastNonWs_joinNl ds2 h2

theorem splitNl_of_joined (ms : List Str) (hne : ms ≠ [])
    (hnl : ∀ l ∈ ms, '\n' ∉ l) :
    splitNl (joinNl ms ++ ['\n']) = ms ++ [[]] := by
  rw [splitNl_append_nl, splitNl_joinNl ms hne hnl]

/-! ## Claim C6 -/

/-- Claim C6, counterexample: `setKey` does not preserve every non-matching
line verbatim in its original position.  On the file `"\nA=1\n"` whose first
line is blank, `setKey(path, "A", "2")` writes `"A=2\n"`: the blank first
line has been dropped by the final `.trim()`, so the blank line does not
appear at its original position in the written result. -/
theorem claim6_counterexample :
    setKeyContent (str "\nA=1\n") (str "A") (str "2") = str "A=2\n" ∧
    (splitNl (str "\nA=1\n")).head? = some [] ∧
    (splitNl (setKeyContent (str "\nA=1\n") (str "A") (str "2"))).head? ≠
      some [] := by
  refine ⟨by decide, by decide, by decide⟩

/-- Claim C6, amended: the rewrite loop of `setKey` touches only matching
lines (third conjunct), and for a file that is a newline-terminated join of
newline-free lines the written content is exactly the newline-join of the
rewritten (resp. filtered) lines — every non-matching line verbatim and in
order, interior blank and comment lines included — provided the surviving
first line does not begin with whitespace and the surviving last line does
not end with whitespace; otherwise the final `.trim()` additionally strips
leading/trailing whitespace (including leading/trailing blank lines), and
the result always ends with exactly one newline.  When no line matches,
`setKey` appends the new entry after the final (empty) segment of the file. -/
theorem claim6_mutation_frame_amended (ms : List Str) (k v : Str)
    (hne : ms ≠ []) (hnl : ∀ l ∈ ms, '\n' ∉ l) :
    (∀ l ∈ ms, lineMatches k l = false → setLineRewrite k v l = l) ∧
    (edgeOkL (if ms.any (lineMatches k) then ms.map (setLineRewrite k v)
              else ms ++ [[], k ++ '=' :: v]) = true →
     edgeOkR (if ms.any (lineMatches k) then ms.map (setLineRewrite k v)
              else ms ++ [[], k ++ '=' :: v]) = true →
     setKeyContent (joinNl ms ++ ['\n']) k v =
       joinNl (if ms.any (lineMatches k) then ms.map (setLineRewrite k v)
               else ms ++ [[], k ++ '=' :: v]) ++ ['\n']) ∧
    (edgeOkL (ms.filter (fun l => !lineMatches k l)) = true →
     edgeOkR (ms.filter (fun l => !lineMatches k l)) = true →
     deleteKeyContent (joinNl ms ++ ['\n']) k =
       joinNl (ms.filter (fun l => !lineMatches k l)) ++ ['\n']) := by
  have hsplit : splitNl (joinNl ms ++ ['\n']) = ms ++ [[]] :=
    splitNl_of_joined ms hne hnl
  refine ⟨fun l _ hm => setLineRewrite_of_not hm, ?_, ?_⟩
  · intro hL hR
    have hdef : setKeyContent (joinNl ms ++ ['\n']) k v =
        jsTrim (joinNl (dropFinalBlank
          (if (splitNl (joinNl ms ++ ['\n'])).any (lineMatches k)
           then (splitNl (joinNl ms ++ ['\n'])).map (setLineRewrite k v)
           else (splitNl (joinNl ms ++ ['\n'])).map (setLineRewrite k v) ++
             [k ++ '=' :: v]))) ++ ['\n'] := rfl
    have hany : (ms ++ [([] : Str)]).any (lineMatches k) =
        ms.any (lineMatches k) := by
      rw [List.any_append]
      simp [lineMatches_nil]
    have hmapp : (ms ++ [([] : Str)]).map (setLineRewrite k v) =
        ms.map (setLineRewrite k v) ++ [[]] := by
      rw [List.map_append]
      simp [setLineRewrite_of_not (lineMatches_nil k)]
    rw [hdef, hsplit, hany, hmapp]
    by_cases hf : ms.any (lineMatches k) = true
    · rw [if_pos hf] at hL hR ⊢
      rw [dropFinalBlank_concat, if_pos (show allWs ([] : Str) = true from rfl),
        jsTrim_joinNl_of_edges _ hL hR, if_pos hf]
    · rw [if_neg hf] at hL hR ⊢
      have hall : ∀ x ∈ ms, lineMatches k x = false := by
        intro x hx
        cases hmx : lineMatches k x with
        | false => rfl
        | true => exact absurd (List.any_eq_true.mpr ⟨x, hx, hmx⟩) hf
      have hmsf : ms.map (setLineRewrite k v) = ms :=
        listMapSelf _ _ (fun x hx => setLineRewrite_of_not (hall x hx))
      rw [hmsf, dropFinalBlank_concat,
        if_neg (show ¬allWs (k ++ '=' :: v) = true by
          simp [entry_not_allWs k v]),
        List.append_assoc, List.singleton_append,
        jsTrim_joinNl_of_edges _ hL hR, if_neg hf]
  · intro hL hR
    have hdef : deleteKeyContent (joinNl ms ++ ['\n']) k =
        jsTrim (joinNl (dropFinalBlank
          ((splitNl (joinNl ms ++ ['\n'])).filter
            (fun l => !lineMatches k l)))) ++ ['\n'] := rfl
    rw [hdef, hsplit, List.filter_append,
      show ([([] : Str)].filter (fun l => !lineMatches k l)) = [[]] by
        simp [lineMatches_nil],
      dropFinalBlank_concat, if_pos (show allWs ([] : Str) = true from rfl),
      jsTrim_joinNl_of_edges _ hL hR]

/-- Claim C6, witness for the amended frame theorem: on the normalized file
`"# c\n\nA=1\nB=2\n"`, `setKey` with key `B` rewrites only the `B` line and
`deleteKey` with key `B` removes only the `B` line; the comment line and the
interior blank line survive verbatim in position. -/
theorem claim6_mutation_frame_amended_witness :
    ([str "# c", str "", str "A=1", str "B=2"] ≠ ([] : List Str)) ∧
    setKeyContent (str "# c\n\nA=1\nB=2\n") (str "B") (str "3") =
      str "# c\n\nA=1\nB=3\n" ∧
    deleteKeyContent (str "# c\n\nA=1\nB=2\n") (str "B") =
      str "# c\n\nA=1\n" := by
  have hms : (joinNl [str "# c", str "", str "A=1", str "B=2"] ++ ['\n']) =
      str "# c\n\nA=1\nB=2\n" := by decide
  have h := claim6_mutation_frame_amended
    [str "# c", str "", str "A=1", str "B=2"] (str "B") (str "3")
    (by decide) (by decide)
  refine ⟨by decide, ?_, ?_⟩
  · have h2 := h.2.1 (by decide) (by decide)
    rw [hms] at h2
    rw [h2]
    decide
  · have h3 := h.2.2 (by decide) (by decide)
    rw [hms] at h3
    rw [h3]
    decide

/-! ## Claim C9 -/

/-- Claim C9, counterexample: `setKey` is not idempotent for every key and
value.  With a value containing a newline, the first call writes
`"A=B\nC\n"`, and the second call rewrites the `A` line to the two-line
entry again while also keeping the stray `C` line, yielding
`"A=B\nC\nC\n"` — the file changed on the second identical call. -/
theorem claim9_counterexample :
    setKeyContent [] (str "A") (str "B\nC") = str "A=B\nC\n" ∧
    setKeyContent (setKeyContent [] (str "A") (str "B\nC")) (str "A")
        (str "B\nC") = str "A=B\nC\nC\n" ∧
    setKeyContent (setKeyContent [] (str "A") (str "B\nC")) (str "A")
        (str "B\nC") ≠ setKeyContent [] (str "A") (str "B\nC") := by
  refine ⟨by decide, by decide, by decide⟩

/-- Claim C9, amended: `setKey` is idempotent after the first call for every
file content, provided the key and value contain no newline, the key
contains no `=` and does not begin with whitespace or `#`, and the value
does not end in whitespace (`goodKV`); for such arguments the second
identical call leaves the file byte-identical. -/
theorem claim9_setKey_idempotent_amended (k v c : Str)
    (h : goodKV k v = true) :
    setKeyContent (setKeyContent c k v) k v = setKeyContent c k v :=
  setKeyContent_idem k v c h

/-- Claim C9, witness: idempotence at key `A`, value `1`, file `"X=0\n"`. -/
theorem claim9_setKey_idempotent_amended_witness :
    goodKV (str "A") (str "1") = true ∧
    setKeyContent (setKeyContent (str "X=0\n") (str "A") (str "1"))
        (str "A") (str "1") =
      setKeyContent (str "X=0\n") (str "A") (str "1") :=
  ⟨by decide,
    claim9_setKey_idempotent_amended (str "A") (str "1") (str "X=0\n")
      (by decide)⟩

/-! ## Claim C3 -/

/-- Claim C3: the atomic writer is all-or-nothing.  For every fault
scenario, initial filesystem state and content: when any of the write,
fsync or rename steps fails, `writeAtomicRaw` raises `FileError`, the
destination content is unchanged, and the temporary sibling is removed
whenever the best-effort unlink succeeds; when all steps succeed, the
destination holds exactly the new content and no temporary file remains. -/
theorem claim3_writeAtomic_all_or_nothing (f : Faults) (st : FSState)
    (content : Str) :
    if f.writeFails || f.fsyncFails || f.renameFails then
      (writeAtomicRaw f st content).1 = .error .fileErr ∧
      (writeAtomicRaw f st content).2.dest = st.dest ∧
      (f.unlinkFails = true ∨ (writeAtomicRaw f st content).2.tmp = none)
    else
      (writeAtomicRaw f st content).1 = .ok () ∧
      (writeAtomicRaw f st content).2.dest = some content ∧
      (writeAtomicRaw f st content).2.tmp = none := by
  cases hw : f.writeFails <;> cases hf2 : f.fsyncFails <;>
    cases hr : f.renameFails <;> cases hu : f.unlinkFails <;>
      simp [writeAtomicRaw, writeAtomicCatch, hw, hf2, hr, hu]

/-! ## Claim C2 -/

/-- Claim C2, code evaluation at the failing input: `withLock` never reads
an existing marker, never tests the recorded process id (nothing is ever
written into the marker), and never deletes a foreign marker.  When the
marker exists at every attempt — exactly the situation after its owner died
without unlinking it — all 100 `openSync(lockPath, 'wx')` attempts fail
with `EEXIST` and `withLock` throws the timeout `FileError` without ever
running the protected action, contradicting the claimed self-healing
reclaim. -/
theorem claim2_stale_lock_times_out {α : Type} (avail : Nat → Bool)
    (action : α) (h : ∀ i, avail i = false) :
    withLockRun avail action = (.error .timeout, false) := by
  unfold withLockRun
  have hnone : ∀ r i, tryAcquireFrom avail i r = none := by
    intro r
    induction r with
    | zero => intro i; rfl
    | succ n ih =>
      intro i
      simp [tryAcquireFrom, h i, ih]
  rw [hnone 100 0]

/-- Claim C2, witness: with the abandoned marker present at every attempt,
the protected write `"DATA=here\n"` fails with the timeout error. -/
theorem claim2_stale_lock_times_out_witness :
    (∀ i : Nat, (fun _ : Nat => false) i = false) ∧
    withLockRun (fun _ : Nat => false) (str "DATA=here\n") =
      (.error .timeout, false) :=
  ⟨fun _ => rfl,
    claim2_stale_lock_times_out (fun _ => false) _ (fun _ => rfl)⟩

/-! ## Claim C7 -/

/-- Claim C7, code evaluation at the failing input: `parseEnvFile` has no
second validation pass.  The file `"mykey=value\n"`, whose key violates the
uppercase/digits/underscore policy, parses successfully into an entry with
key `mykey` instead of failing with `ValidationError` (the parser can only
raise `ParseError`; the tests of the repository expect `ValidationError`
here). -/
theorem claim7_no_validation_pass :
    parseEnvContent (str "mykey=value\n") =
      .ok ⟨[⟨str "mykey", str "value", false, 1, str "mykey=value"⟩,
            ⟨[], [], false, 2, []⟩], [str "mykey"], 0, 1⟩ := by
  decide

/-! ## Claim C10 -/

theorem blank_comment_not_enc {s : Str}
    (h : (s.isEmpty || hasPfx (str "#") s) = true) :
    isEncryptedValue s = false := by
  cases s with
  | nil => rfl
  | cons c s' =>
    simp only [List.isEmpty_cons, Bool.false_or] at h
    have hc : c = '#' := by
      have hp : hasPfx ['#'] (c :: s') = true := h
      simp only [hasPfx, Bool.and_eq_true, decide_eq_true_eq] at hp
      exact hp.1.symm
    subst hc
    rfl

theorem parseLines_inv (ls : List Str) (n : Nat) (acc : List ParsedLine)
    (keys : List Str) (ec pc : Nat) (p : ParsedEnv)
    (hkeys : keys = (acc.filter (fun l => !l.key.isEmpty)).map (fun l => l.key))
    (hnodup : keys.Nodup)
    (hcount : ec + pc = (acc.filter (fun l => !l.key.isEmpty)).length)
    (hflag : ∀ l ∈ acc, l.encrypted = isEncryptedValue l.value)
    (hok : parseLines ls n acc keys ec pc = .ok p) :
    p.keys = (p.lines.filter (fun l => !l.key.isEmpty)).map (fun l => l.key) ∧
    p.keys.Nodup ∧
    p.encryptedCount + p.plaintextCount =
      (p.lines.filter (fun l => !l.key.isEmpty)).length ∧
    ∀ l ∈ p.lines, l.encrypted = isEncryptedValue l.value := by
  induction ls generalizing n acc keys ec pc with
  | nil =>
    simp only [parseLines, Except.ok.injEq] at hok
    rw [← hok]
    exact ⟨hkeys, hnodup, hcount, hflag⟩
  | cons raw rest ih =>
    simp only [parseLines] at hok
    split at hok
    · rename_i hbc
      refine ih (n + 1) _ keys ec pc ?_ hnodup ?_ ?_ hok
      · simpa [List.filter_append, List.filter_cons] using hkeys
      · simpa [List.filter_append, List.filter_cons] using hcount
      · intro l hl
        rcases List.mem_append.mp hl with hl | hl
        · exact hflag l hl
        · rw [List.mem_singleton.mp hl]
          exact (blank_comment_not_enc hbc).symm
    · split at hok
      · exact absurd hok (by simp)
      · split at hok
        · exact absurd hok (by simp)
        · split at hok
          · exact absurd hok (by simp)
          · rename_i hbc hmem hkey hdup
            have hkf : (eqKey (jsTrim raw)).isEmpty = false := by
              simpa using hkey
            refine ih (n + 1) _ _ _ _ ?_ ?_ ?_ ?_ hok
            · simp [List.filter_append, List.filter_cons, hkf, ← hkeys]
            · rw [List.nodup_append]
              refine ⟨hnodup, List.nodup_singleton _, ?_⟩
              intro a ha hb
              rw [List.mem_singleton.mp hb] at ha
              exact hdup ha
            · cases henc : isEncryptedValue (eqVal (jsTrim raw)) <;>
                simp [List.filter_append, List.filter_cons, hkf, henc] <;>
                omega
            · intro l hl
              rcases List.mem_append.mp hl with hl | hl
              · exact hflag l hl
              · rw [List.mem_singleton.mp hl]

/-- Claim C10: every `ParsedEnv` returned by `parseEnvFile` satisfies the
structural invariants: `keys` is exactly the (duplicate-free, in-order)
list of keys of the entry lines, so each key occurs in exactly one entry
line; `encryptedCount + plaintextCount` equals the number of entry lines;
and the `encrypted` flag of every line is set iff its value starts with
`enc:age:`. -/
theorem claim10_parsed_env_invariants (content : Str) (p : ParsedEnv)
    (h : parseEnvContent content = .ok p) :
    p.keys = (entryLines p).map (fun l => l.key) ∧
    p.keys.Nodup ∧
    p.encryptedCount + p.plaintextCount = (entryLines p).length ∧
    ∀ l ∈ p.lines, l.encrypted = isEncryptedValue l.value :=
  parseLines_inv (splitNl content) 1 [] [] 0 0 p rfl List.nodup_nil rfl
    (by intro l hl; simp at hl) h

/-- Claim C10, witness: the invariants hold for the parse of
`"A=1\n# c\nB=enc:age:xx\n"`. -/
theorem claim10_parsed_env_invariants_witness :
    parseEnvContent (str "A=1\n# c\nB=enc:age:xx\n") =
      .ok ⟨[⟨str "A", str "1", false, 1, str "A=1"⟩,
            ⟨[], str "# c", false, 2, str "# c"⟩,
            ⟨str "B", str "enc:age:xx", true, 3, str "B=enc:age:xx"⟩,
            ⟨[], [], false, 4, []⟩],
           [str "A", str "B"], 1, 1⟩ ∧
    (ParsedEnv.keys ⟨[⟨str "A", str "1", false, 1, str "A=1"⟩,
            ⟨[], str "# c", false, 2, str "# c"⟩,
            ⟨str "B", str "enc:age:xx", true, 3, str "B=enc:age:xx"⟩,
            ⟨[], [], false, 4, []⟩],
           [str "A", str "B"], 1, 1⟩ =
      (entryLines ⟨[⟨str "A", str "1", false, 1, str "A=1"⟩,
            ⟨[], str "# c", false, 2, str "# c"⟩,
            ⟨str "B", str "enc:age:xx", true, 3, str "B=enc:age:xx"⟩,
            ⟨[], [], false, 4, []⟩],
           [str "A", str "B"], 1, 1⟩).map (fun l => l.key)) := by
  constructor
  · decide
  · exact (claim10_parsed_env_invariants (str "A=1\n# c\nB=enc:age:xx\n")
      ⟨[⟨str "A", str "1", false, 1, str "A=1"⟩,
            ⟨[], str "# c", false, 2, str "# c"⟩,
            ⟨str "B", str "enc:age:xx", true, 3, str "B=enc:age:xx"⟩,
            ⟨[], [], false, 4, []⟩],
           [str "A", str "B"], 1, 1⟩ (by decide)).1

/-! ## Claim C8 -/

/-- Claim C8: a leading byte-order mark is stripped before parsing (the
per-line `trim()` removes U+FEFF, which JavaScript counts as whitespace).
For every well-formed entry line `KEY=VALUE` — nonempty key without `=`,
neither side containing a newline, the line unaffected by trimming and not
a comment — parsing the file `U+FEFF ++ "KEY=VALUE"` succeeds with an entry
whose key is `KEY` (without the BOM) and whose value is `VALUE`, and
`findKey` finds that entry under `KEY`. -/
theorem claim8_bom_stripped (k v : Str)
    (hnlk : '\n' ∉ k) (hnlv : '\n' ∉ v) (hek : '=' ∉ k) (hkne : k ≠ [])
    (hst : jsTrim (k ++ '=' :: v) = k ++ '=' :: v)
    (hhash : hasPfx (str "#") (k ++ '=' :: v) = false) :
    ∃ p l, parseEnvContent (Char.ofNat 0xFEFF :: (k ++ '=' :: v)) = .ok p ∧
      findKey p k = some l ∧ l.key = k ∧ l.value = v := by
  have hbom : isJsWs (Char.ofNat 0xFEFF) = true := by decide
  have hnlline : '\n' ∉ (Char.ofNat 0xFEFF :: (k ++ '=' :: v) : Str) := by
    intro hm
    rcases List.mem_cons.mp hm with hm | hm
    · exact absurd hm (by decide)
    · rcases List.mem_append.mp hm with hm | hm
      · exact hnlk hm
      · rcases List.mem_cons.mp hm with hm | hm
        · exact absurd hm (by decide)
        · exact hnlv hm
  have htr : jsTrim (Char.ofNat 0xFEFF :: (k ++ '=' :: v)) = k ++ '=' :: v := by
    rw [jsTrim_ws_cons _ hbom, hst]
  have hempty : (k ++ '=' :: v : Str).isEmpty = false := by
    cases k <;> rfl
  have hkf : k.isEmpty = false := by
    cases k with
    | nil => exact absurd rfl hkne
    | cons a t => rfl
  have hmem : '=' ∈ (k ++ '=' :: v : Str) :=
    List.mem_append.mpr (Or.inr (List.mem_cons_self _ _))
  refine ⟨⟨[⟨k, v, isEncryptedValue v, 1, Char.ofNat 0xFEFF :: (k ++ '=' :: v)⟩],
      [k], if isEncryptedValue v then 1 else 0,
      if isEncryptedValue v then 0 else 1⟩,
    ⟨k, v, isEncryptedValue v, 1, Char.ofNat 0xFEFF :: (k ++ '=' :: v)⟩,
    ?_, ?_, rfl, rfl⟩
  · unfold parseEnvContent
    rw [splitNl_no_nl _ hnlline]
    simp only [parseLines, htr, hempty, hhash, Bool.or_self, Bool.false_eq_true,
      if_false, hmem, decide_eq_true_eq, eqKey_entry v hek, eqVal_entry v hek,
      hkf, List.not_mem_nil, if_true]
    simp [hmem]
  · simp [findKey, List.find?]

/-- Claim C8, witness: `U+FEFF` followed by `KEY=VALUE` parses to an entry
with key `KEY` and value `VALUE`. -/
theorem claim8_bom_stripped_witness :
    (('\n' ∉ str "KEY") ∧ ('\n' ∉ str "VALUE") ∧ ('=' ∉ str "KEY") ∧
      str "KEY" ≠ [] ∧
      jsTrim (str "KEY" ++ '=' :: str "VALUE") =
        str "KEY" ++ '=' :: str "VALUE" ∧
      hasPfx (str "#") (str "KEY" ++ '=' :: str "VALUE") = false) ∧
    (∃ p l,
      parseEnvContent (Char.ofNat 0xFEFF :: (str "KEY" ++ '=' :: str "VALUE")) =
        .ok p ∧
      findKey p (str "KEY") = some l ∧ l.key = str "KEY" ∧
      l.value = str "VALUE") :=
  ⟨⟨by decide, by decide, by decide, by decide, by decide, by decide⟩,
    claim8_bom_stripped (str "KEY") (str "VALUE") (by decide) (by decide)
      (by decide) (by decide) (by decide) (by decide)⟩

/-! ## Claim C4 -/

theorem vault_ref_not_enc {s : Str} (h : isVaultReference s = true) :
    isEncryptedValue s = false := by
  cases s with
  | nil => exact absurd h (by decide)
  | cons c s' =>
    have hv : vaultPfx = 'v' :: str "ault:" := rfl
    unfold isVaultReference at h
    rw [hv] at h
    simp only [hasPfx, Bool.and_eq_true, decide_eq_true_eq] at h
    rw [← h.1]
    have he : encPfx = 'e' :: str "nc:age:" := rfl
    unfold isEncryptedValue
    rw [he]
    simp [hasPfx]

/-- Claim C4: for every record entry whose value is a vault reference naming
a key absent from the vault, `get` of that record key — reached through the
resolution order, i.e. the key is not bound in the process environment, not
cached, and not reserved (`_`-prefixed) — fails with `VaultError` carrying
the vault-miss message, not with `SecretNotFound`. -/
theorem claim4_vault_miss_is_vault_error (c key : Str) (p : ParsedEnv)
    (l : ParsedLine) (procEnv : List (Str × Str))
    (cache : List (Str × CacheEntry)) (vault : Str → Option Str)
    (dec : Str → Except ResolveErr Str) (now : Nat)
    (hparse : parseEnvContent c = .ok p)
    (hfind : findKey p key = some l)
    (hvr : isVaultReference l.value = true)
    (hmiss : vault (l.value.drop vaultPfx.length) = none)
    (hpriv : hasPfx (str "_") key = false)
    (henv : envLookup procEnv key = none)
    (hcache : cacheLookup cache key = none) :
    (sdkGet procEnv (some p) vault dec now cache key).1 =
      .error (.vaultError (vaultMissingMsg (l.value.drop vaultPfx.length)
        key)) := by
  have hkey : l.key = key := by
    have := List.find?_some hfind
    simpa using this
  have hmem : l ∈ p.lines := List.mem_of_find?_eq_some hfind
  have hflag : l.encrypted = isEncryptedValue l.value :=
    (parseLines_inv (splitNl c) 1 [] [] 0 0 p rfl List.nodup_nil rfl
      (by intro x hx; simp at hx) hparse).2.2.2 l hmem
  have henc : l.encrypted = false := by
    rw [hflag, vault_ref_not_enc hvr]
  unfold sdkGet
  rw [henv, hcache]
  simp only [hfind, hkey, hpriv, henc, hvr, hmiss, Bool.false_eq_true,
    if_false, if_true]

/-- Claim C4, witness: `DB=vault:GLOBAL_DB` with an empty vault — `get("DB")`
fails with the `VaultError` naming the missing vault key. -/
theorem claim4_vault_miss_is_vault_error_witness :
    (parseEnvContent (str "DB=vault:GLOBAL_DB\n") =
      .ok ⟨[⟨str "DB", str "vault:GLOBAL_DB", false, 1,
              str "DB=vault:GLOBAL_DB"⟩, ⟨[], [], false, 2, []⟩],
            [str "DB"], 0, 1⟩) ∧
    (sdkGet [] (some ⟨[⟨str "DB", str "vault:GLOBAL_DB", false, 1,
              str "DB=vault:GLOBAL_DB"⟩, ⟨[], [], false, 2, []⟩],
            [str "DB"], 0, 1⟩) (fun _ => none) (fun _ => .ok []) 0 []
        (str "DB")).1 =
      .error (.vaultError (vaultMissingMsg
        ((str "vault:GLOBAL_DB").drop vaultPfx.length) (str "DB"))) := by
  constructor
  · decide
  · exact claim4_vault_miss_is_vault_error (str "DB=vault:GLOBAL_DB\n")
      (str "DB") _
      ⟨str "DB", str "vault:GLOBAL_DB", false, 1, str "DB=vault:GLOBAL_DB"⟩
      [] [] (fun _ => none) (fun _ => .ok []) 0
      (by decide) (by decide) (by decide) rfl (by decide) rfl rfl

/-! ## Claim C1 -/

/-- Claim C1, code evaluation at the failing input: `get` caches the
decrypted string before checking whether it is a vault reference
(env.ts line 180 precedes the check at line 183).  For a record entry `K`
whose ciphertext decrypts to `vault:V` with `V ↦ w` in the vault, the
first `get(K)` returns `w` but stores the literal string `vault:V` in the
resolver cache, and the second `get(K)` returns `vault:V` straight from
the cache instead of delegating to the vault — contradicting the claim
(and the comment in the code that vault-derived values are not cached). -/
theorem claim1_decrypted_vault_ref_is_cached :
    (sdkGet [] (parseEnvContent (str "K=enc:age:xx\n")).toOption
        (fun q => if q = str "V" then some (str "w") else none)
        (fun _ => .ok (str "vault:V")) 0 [] (str "K")).1 = .ok (str "w") ∧
    cacheLookup
        (sdkGet [] (parseEnvContent (str "K=enc:age:xx\n")).toOption
          (fun q => if q = str "V" then some (str "w") else none)
          (fun _ => .ok (str "vault:V")) 0 [] (str "K")).2 (str "K") =
      some (str "vault:V") ∧
    (sdkGet [] (parseEnvContent (str "K=enc:age:xx\n")).toOption
        (fun q => if q = str "V" then some (str "w") else none)
        (fun _ => .ok (str "vault:V")) 0
        (sdkGet [] (parseEnvContent (str "K=enc:age:xx\n")).toOption
          (fun q => if q = str "V" then some (str "w") else none)
          (fun _ => .ok (str "vault:V")) 0 [] (str "K")).2
        (str "K")).1 = .ok (str "vault:V") := by
  refine ⟨by decide, by decide, by decide⟩

/-! ## Claim C5 -/

/-- Claim C5, counterexample: with a stale memoized snapshot that lacks the
key (here the empty snapshot) while the on-disk vault contains it,
`vaultDelete` returns through its early `!cache.has(key)` check without
touching the disk: the key is still persisted afterwards. -/
theorem claim5_counterexample :
    (vaultDelete (str "K") ⟨some [], some [(str "K", str "1")]⟩).disk =
      some [(str "K", str "1")] ∧
    vLookup [(str "K", str "1")] (str "K") = some (str "1") := by
  refine ⟨by decide, by decide⟩

/-- Claim C5, amended: `vaultSet` always discards the snapshot and applies
its change to the freshly reloaded on-disk state — the resulting persisted
vault is exactly the reloaded disk map with the key bound to the value,
regardless of the prior snapshot.  `vaultDelete`, however, first consults
the existing (possibly stale) snapshot and returns without touching the
disk when that snapshot lacks the key; only when the consulted snapshot
contains the key does it discard, reload fresh, and remove the key from
the reloaded on-disk state (persisting the removal when the reloaded state
contains the key). -/
theorem claim5_vault_mutation_amended (w : VaultWorld) (k v : Str) :
    (vaultSet k v w).disk = some (vSet (w.disk.getD []) k v) ∧
    ((loadVault w).1.any (fun q => q.1 = k) = true →
     (w.disk.getD []).any (fun q => q.1 = k) = true →
     (vaultDelete k w).disk = some (vDelete (w.disk.getD []) k)) := by
  constructor
  · cases hs : w.snapshot <;> cases hd : w.disk <;>
      simp [vaultSet, loadVault, saveVault, hs, hd]
  · intro hk hd2
    obtain ⟨ws, wd⟩ := w
    cases ws <;> cases wd <;>
      simp_all [vaultDelete, loadVault, saveVault]
    · rename_i d
      obtain ⟨x, hx⟩ := hk
      have hany : (d.any fun q => decide (q.1 = k)) = true :=
        List.any_eq_true.mpr ⟨(k, x), hx, by simp⟩
      simp [hany]
    · rename_i s1 d
      obtain ⟨x, hx⟩ := hk
      have hany : (s1.any fun q => decide (q.1 = k)) = true :=
        List.any_eq_true.mpr ⟨(k, x), hx, by simp⟩
      simp [hany]

/-- Claim C5, witness: with snapshot and disk in sync on `{K ↦ 1}`,
`vaultSet(K, 2)` rebinds `K` on disk and `vaultDelete(K)` removes it. -/
theorem claim5_vault_mutation_amended_witness :
    ((loadVault ⟨some [(str "K", str "1")], some [(str "K", str "1")]⟩).1.any
      (fun q => q.1 = str "K") = true) ∧
    (vaultSet (str "K") (str "2")
        ⟨some [(str "K", str "1")], some [(str "K", str "1")]⟩).disk =
      some (vSet [(str "K", str "1")] (str "K") (str "2")) ∧
    (vaultDelete (str "K")
        ⟨some [(str "K", str "1")], some [(str "K", str "1")]⟩).disk =
      some (vDelete [(str "K", str "1")] (str "K")) := by
  refine ⟨by decide, ?_, ?_⟩
  · exact (claim5_vault_mutation_amended
      ⟨some [(str "K", str "1")], some [(str "K", str "1")]⟩
      (str "K") (str "2")).1
  · exact (claim5_vault_mutation_amended
      ⟨some [(str "K", str "1")], some [(str "K", str "1")]⟩
      (str "K") (str "2")).2 (by decide) (by decide)

